import Mathlib

/-!
Verification of the dtype-polymorphic numeric primitives layer
(`src/caffe/util/math_functions.cpp`).

Modelling conventions:
* C buffers (raw pointers) are modelled as total functions `ℤ → α`; a write
  of `count` elements starting at offset 0 updates exactly the indices
  `0 ≤ i < count` and leaves every other index unchanged.
* The compute type `float` is modelled by exact rationals `ℚ`; the vendor
  BLAS backend (an opaque external capability) is modelled by the exact
  row-major BLAS semantics `cblas_sgemm` / `cblas_sgemv` below.
* The reduced-precision scalar type `half` is an opaque type `H` together
  with the two conversions the source uses: `toF : H → ℚ` (the source's
  Get<float>) and `ofF : ℚ → H` (the source's Get<half>).
* The process-wide random engine and the boost distribution adapters are
  modelled by an abstract sampler `dist lo hi i` giving the i-th draw from
  the half-open interval [lo, hi); glog CHECK failures are modelled by
  `Option.none` (the call aborts before touching the output buffer).
-/

namespace Caffe

/-- Model of `caffe_cpu_convert(count, src, dst)`: element-wise conversion of `count`
elements; indices outside `[0, count)` of the destination are untouched. -/
def caffe_cpu_convert {α β : Type} (conv : α → β) (count : ℤ)
    (src : ℤ → α) (dst : ℤ → β) : ℤ → β :=
  fun i => if 0 ≤ i ∧ i < count then conv (src i) else dst i

/-- Signature of the backend matrix-matrix multiply
(transA, transB, M, N, K, alpha, A, lda, B, ldb, beta, C, ldc). -/
abbrev SgemmFn :=
  Bool → Bool → ℤ → ℤ → ℤ → ℚ → (ℤ → ℚ) → ℤ → (ℤ → ℚ) → ℤ → ℚ → (ℤ → ℚ) → ℤ → (ℤ → ℚ)

/-- Signature of the backend matrix-vector multiply with unit strides
(transA, M, N, alpha, A, lda, x, beta, y), as the source always passes
incx = incy = 1. -/
abbrev SgemvFn :=
  Bool → ℤ → ℤ → ℚ → (ℤ → ℚ) → ℤ → (ℤ → ℚ) → ℚ → (ℤ → ℚ) → (ℤ → ℚ)

/-- Exact row-major semantics of the backend `cblas_sgemm`:
for each `0 ≤ m < M`, `0 ≤ n < N` it sets
`C[m*ldc + n] := alpha * (Σ_k opA[m,k] * opB[k,n]) + beta * C[m*ldc + n]`,
where `opA[m,k] = A[m*lda + k]` (or `A[k*lda + m]` when transposed) and
`opB[k,n] = B[k*ldb + n]` (or `B[n*ldb + k]` when transposed).
Every other index is unchanged.  The output index is decoded through `ldc`. -/
def cblas_sgemm : SgemmFn :=
  fun transA transB M N K alpha A lda B ldb beta C ldc idx =>
    if 0 < ldc ∧ 0 ≤ idx ∧ idx / ldc < M ∧ idx % ldc < N then
      alpha * (∑ k in Finset.range K.toNat,
          (cond transA (A ((k : ℤ) * lda + idx / ldc)) (A ((idx / ldc) * lda + (k : ℤ)))) *
          (cond transB (B ((idx % ldc) * ldb + (k : ℤ))) (B ((k : ℤ) * ldb + idx % ldc))))
        + beta * C idx
    else C idx

/-- Exact row-major semantics of the backend `cblas_sgemv` (unit strides):
not transposed it writes `y[m] := alpha * (Σ_j A[m*lda+j] * x[j]) + beta * y[m]`
for `0 ≤ m < M`; transposed it writes
`y[j] := alpha * (Σ_m A[m*lda+j] * x[m]) + beta * y[j]` for `0 ≤ j < N`. -/
def cblas_sgemv : SgemvFn :=
  fun transA M N alpha A lda x beta y i =>
    if 0 ≤ i ∧ i < cond transA N M then
      alpha * (∑ k in Finset.range (cond transA M N).toNat,
          (cond transA (A ((k : ℤ) * lda + i)) (A (i * lda + (k : ℤ)))) * x (k : ℤ))
        + beta * y i
    else y i

/-- Model of `caffe_cpu_gemm<float,float>` (native path, lines 13-22): forwards to the
backend with `lda = (TransA == NoTrans) ? K : M`, `ldb = (TransB == NoTrans) ? N : K`,
`ldc = N`. -/
def caffe_cpu_gemm_float (transA transB : Bool) (M N K : ℤ) (alpha : ℚ)
    (A B : ℤ → ℚ) (beta : ℚ) (C : ℤ → ℚ) : ℤ → ℚ :=
  cblas_sgemm transA transB M N K alpha A (cond transA M K)
    B (cond transB K N) beta C N

/-- Model of `caffe_cpu_gemm<half,float>` (reduced-precision path, lines 36-54):
early return when `M ≤ 0 || N ≤ 0 || K ≤ 0`; otherwise three compute-type
temporaries of sizes `M*K`, `K*N`, `M*N` (value-initialised to 0 by
`std::vector<float>`), conversion of `A`, `B` and the pre-existing `C` into
them, backend multiply on the temporaries, conversion of the `M*N` result
back into `C`.  The backend is a parameter (opaque collaborator). -/
def caffe_cpu_gemm_half {H : Type} (sgemm : SgemmFn) (toF : H → ℚ) (ofF : ℚ → H)
    (transA transB : Bool) (M N K : ℤ) (alpha : ℚ) (A B : ℤ → H) (beta : ℚ)
    (C : ℤ → H) : ℤ → H :=
  if M ≤ 0 ∨ N ≤ 0 ∨ K ≤ 0 then C
  else
    let a : ℤ → ℚ := caffe_cpu_convert toF (M * K) A (fun _ => 0)
    let b : ℤ → ℚ := caffe_cpu_convert toF (K * N) B (fun _ => 0)
    let c : ℤ → ℚ := caffe_cpu_convert toF (M * N) C (fun _ => 0)
    let lda : ℤ := cond transA M K
    let ldb : ℤ := cond transB K N
    caffe_cpu_convert ofF (M * N)
      (sgemm transA transB M N K alpha a lda b ldb beta c N) C

/-- Model of `caffe_cpu_gemv<float,float>` (native path, lines 56-61): forwards to the
backend with `lda = N`. -/
def caffe_cpu_gemv_float (transA : Bool) (M N : ℤ) (alpha : ℚ)
    (A x : ℤ → ℚ) (beta : ℚ) (y : ℤ → ℚ) : ℤ → ℚ :=
  cblas_sgemv transA M N alpha A N x beta y

/-- Model of `caffe_cpu_gemv<half,float>` (reduced-precision path, lines 71-87):
early return when `M ≤ 0 || N ≤ 0`; temporaries of sizes `M*N`,
`lx = (NoTrans ? N : M)`, `ly = (NoTrans ? M : N)`; conversion of `A`, `x`
and the pre-existing `y` in, backend multiply, conversion of the `ly`
results back into `y`. -/
def caffe_cpu_gemv_half {H : Type} (sgemv : SgemvFn) (toF : H → ℚ) (ofF : ℚ → H)
    (transA : Bool) (M N : ℤ) (alpha : ℚ) (A x : ℤ → H) (beta : ℚ)
    (y : ℤ → H) : ℤ → H :=
  if M ≤ 0 ∨ N ≤ 0 then y
  else
    let lx : ℤ := cond transA M N
    let ly : ℤ := cond transA N M
    let a : ℤ → ℚ := caffe_cpu_convert toF (M * N) A (fun _ => 0)
    let xv : ℤ → ℚ := caffe_cpu_convert toF lx x (fun _ => 0)
    let yv : ℤ → ℚ := caffe_cpu_convert toF ly y (fun _ => 0)
    caffe_cpu_convert ofF ly (sgemv transA M N alpha a N xv beta yv) y

/-- Model of `caffe_set` (lines 107-116): when `alpha == 0` a bulk `memset` zero-fill
of the first `n` elements (each element becomes the storage type's all-zero
bit pattern, the parameter `zeroD`); otherwise a per-element store of
`Get<Dtype>(alpha)`. -/
def caffe_set {D : Type} (convD : ℚ → D) (zeroD : D) (n : ℤ) (alpha : ℚ)
    (Y : ℤ → D) : ℤ → D :=
  if alpha = 0 then fun i => if 0 ≤ i ∧ i < n then zeroD else Y i
  else fun i => if 0 ≤ i ∧ i < n then convD alpha else Y i

/-- The general per-element-store path, following the spec's words (no
zero special case): every element of `[0, n)` is set to the storage-type
conversion of `alpha`.  Used to compare the bulk-zero-fill special case
against the path the spec describes. -/
def caffe_set_general {D : Type} (convD : ℚ → D) (n : ℤ) (alpha : ℚ)
    (Y : ℤ → D) : ℤ → D :=
  fun i => if 0 ≤ i ∧ i < n then convD alpha else Y i

/-- Model of `caffe_copy` (lines 149-163).  Pointers are modelled as base addresses
`px`, `py` into a flat heap.  `if (X != Y)`: on identical addresses nothing
happens; otherwise GPU mode issues `cudaMemcpy` when CUDA is compiled in and
is the fatal `NO_GPU` otherwise (modelled as `none`), CPU mode is `memcpy`. -/
def caffe_copy {D : Type} (isGPU gpuAvailable : Bool) (n : ℤ) (px py : ℤ)
    (heap : ℤ → D) : Option (ℤ → D) :=
  if px ≠ py then
    if isGPU then
      if gpuAvailable then
        some (fun ad => if py ≤ ad ∧ ad < py + n then heap (px + (ad - py)) else heap ad)
      else none
    else
      some (fun ad => if py ≤ ad ∧ ad < py + n then heap (px + (ad - py)) else heap ad)
  else some heap

/-- Model of `caffe_cpu_strided_dot<half,float>` (lines 519-531): a left-to-right
loop holding the running sum in the compute type, adding
`Get<float>(x[i*incx]) * Get<float>(y[i*incy])` at step `i`. -/
def caffe_cpu_strided_dot_half {H : Type} (toF : H → ℚ) (n : ℤ)
    (x : ℤ → H) (incx : ℤ) (y : ℤ → H) (incy : ℤ) : ℚ :=
  (List.range n.toNat).foldl
    (fun (sum : ℚ) (i : ℕ) => sum + toF (x ((i : ℤ) * incx)) * toF (y ((i : ℤ) * incy))) 0

/-- The compute type's representable values, abstractly: a predicate `rep`
picking out the representable rationals together with the successor
function `next` of `boost::math::nextafter(·, max)`, which maps a
representable value to the smallest representable value strictly above it.
The reduced-precision/compute scalar formats are opaque external
capabilities; only these two laws of `nextafter` are used. -/
structure RepModel where
  rep : ℚ → Prop
  next : ℚ → ℚ
  lt_next : ∀ x, rep x → x < next x
  next_le : ∀ x y, rep x → rep y → x < y → next x ≤ y

/-- Model of `caffe_nextafter(b)` (lines 389-393): the next representable
compute-type value after `b` in the direction of the largest value. -/
def caffe_nextafter (R : RepModel) (b : ℚ) : ℚ := R.next b

/-- Model of `caffe_rng_uniform` (lines 401-412): after the CHECKs
(`n ≥ 0`, `a ≤ b`; a CHECK failure aborts before any write, modelled as
`none`), a `boost::uniform_real` distribution on
`[a, caffe_nextafter(b))` is constructed and `n` draws are converted to the
storage type.  `dist lo hi i` is the opaque i-th draw of the distribution
on the half-open interval `[lo, hi)`. -/
def caffe_rng_uniform {H : Type} (dist : ℚ → ℚ → ℕ → ℚ) (R : RepModel)
    (conv : ℚ → H) (n : ℤ) (a b : ℚ) : Option (List H) :=
  if 0 ≤ n ∧ a ≤ b then
    some ((List.range n.toNat).map fun i => conv (dist a (caffe_nextafter R b) i))
  else none

/-- Model of `caffe_rng_gaussian` (lines 428-440): after the CHECKs
(`n ≥ 0`, `sigma > 0`; a CHECK failure aborts before any computation or
write, modelled as `none`), `n` draws of the normal distribution with the
given mean and standard deviation are converted to the storage type. -/
def caffe_rng_gaussian {H : Type} (dist : ℚ → ℚ → ℕ → ℚ)
    (conv : ℚ → H) (n : ℤ) (mu sigma : ℚ) : Option (List H) :=
  if 0 ≤ n ∧ 0 < sigma then
    some ((List.range n.toNat).map fun i => conv (dist mu sigma i))
  else none

/-- A concrete representable-value model for witnesses: the integer grid,
where the successor of a value is one more. -/
def gridRep : RepModel where
  rep q := ∃ k : ℤ, q = (k : ℚ)
  next q := q + 1
  lt_next := fun x _ => lt_add_one x
  next_le := by
    rintro x y ⟨k, rfl⟩ ⟨m, rfl⟩ h
    have hk : k < m := by exact_mod_cast h
    have hk1 : k + 1 ≤ m := Int.add_one_le_iff.mpr hk
    show (k : ℚ) + 1 ≤ (m : ℚ)
    exact_mod_cast hk1

/-- Model of `__builtin_popcount` with explicit fuel (the fuel `n` is
always sufficient since the argument at least halves each step): number of
set bits of a natural number. -/
def popcountAux : ℕ → ℕ → ℕ
  | 0, _ => 0
  | fuel + 1, n => if n = 0 then 0 else n % 2 + popcountAux fuel (n / 2)

/-- Number of set bits (population count) of a natural number. -/
def popcount (n : ℕ) : ℕ := popcountAux n n

/-- Model of the C++ float-to-integer conversion (`static_cast` to an
unsigned integer type): the fractional part is discarded, i.e. the value is
truncated toward zero (`Int.tdiv` of numerator by denominator).  Meaningful
(not undefined behaviour) only when the truncated value is representable in
the destination width; the theorems carry that range assumption
explicitly. -/
def cppTruncToInt (q : ℚ) : ℤ := q.num.tdiv (q.den : ℤ)

/-- Model of `caffe_cpu_hamming_distance<float,float>` (lines 550-559):
a loop accumulating `__builtin_popcount(uint32(x[i]) ^ uint32(y[i]))`,
where `uint32(·)` is the C++ numeric (truncating) conversion. -/
def caffe_cpu_hamming_distance_float (n : ℤ) (x y : ℤ → ℚ) : ℤ :=
  (List.range n.toNat).foldl
    (fun (dist : ℤ) (i : ℕ) =>
      dist + (popcount ((cppTruncToInt (x (i : ℤ))).toNat ^^^ (cppTruncToInt (y (i : ℤ))).toNat) : ℤ)) 0

/-- Model of `caffe_cpu_hamming_distance<double,double>` (lines 561-570):
same loop with the 64-bit conversion `uint64(·)`. -/
def caffe_cpu_hamming_distance_double (n : ℤ) (x y : ℤ → ℚ) : ℤ :=
  (List.range n.toNat).foldl
    (fun (dist : ℤ) (i : ℕ) =>
      dist + (popcount ((cppTruncToInt (x (i : ℤ))).toNat ^^^ (cppTruncToInt (y (i : ℤ))).toNat) : ℤ)) 0

/-- Model of `caffe_cpu_hamming_distance<half,float>` (lines 573-583):
same loop on `uint16(Get<float>(x[i])) ^ uint16(Get<float>(y[i]))`, i.e.
conversion to the compute type followed by the truncating 16-bit
conversion. -/
def caffe_cpu_hamming_distance_half {H : Type} (toF : H → ℚ) (n : ℤ)
    (x y : ℤ → H) : ℤ :=
  (List.range n.toNat).foldl
    (fun (dist : ℤ) (i : ℕ) =>
      dist + (popcount ((cppTruncToInt (toF (x (i : ℤ)))).toNat ^^^
        (cppTruncToInt (toF (y (i : ℤ)))).toNat) : ℤ)) 0

/-- Largest exponent `e` in `[-126, 127]` with `2^e ≤ m` (for `m` at least
`2^(-126)`), found by an ascending scan; helper for `float32bits`. -/
def float32exp (m : ℚ) : ℤ :=
  (List.range 254).foldl
    (fun (acc : ℤ) (j : ℕ) =>
      if (2 : ℚ) ^ ((j : ℤ) - 126) ≤ m then (j : ℤ) - 126 else acc) (-126)

/-- Modelled from the spec: the IEEE-754 binary32 bit pattern of a value,
read as an unsigned 32-bit integer — what the spec's sentence
"the two buffers' elements reinterpreted as unsigned integers of matching
width ... a bit-pattern metric" requires the hamming distance to operate
on.  Sign bit, biased exponent and mantissa for normal numbers, the
subnormal encoding below `2^(-126)`, rounding toward zero; exact on
representable values (which is all the bit-pattern reading needs). -/
def float32bits (q : ℚ) : ℕ :=
  if q = 0 then 0
  else
    let s : ℕ := if q < 0 then 2 ^ 31 else 0
    let m : ℚ := |q|
    let e : ℤ := float32exp m
    if 127 < e then s + 255 * 2 ^ 23
    else if m < (2 : ℚ) ^ (-126 : ℤ) then s + (cppTruncToInt (m * 2 ^ (149 : ℕ))).toNat
    else s + (e + 127).toNat * 2 ^ 23 + (cppTruncToInt ((m / (2 : ℚ) ^ e - 1) * 2 ^ 23)).toNat

/-- Modelled from the spec: the hamming distance as the claim states it for
single precision — population count of the XOR of the elements'
**bit patterns** reinterpreted as 32-bit unsigned integers. -/
def hamming_distance_bitpattern (n : ℤ) (x y : ℤ → ℚ) : ℤ :=
  ∑ i in Finset.range n.toNat,
    (popcount (float32bits (x (i : ℤ)) ^^^ float32bits (y (i : ℤ))) : ℤ)

/- ------------------------------------------------------------------ -/
/- Helper lemmas                                                       -/
/- ------------------------------------------------------------------ -/

/-- A representable value strictly below `next b` is at most `b`
(there is no representable value strictly between `b` and `next b`). -/
theorem rep_lt_next_imp_le (R : RepModel) {q b : ℚ} (hq : R.rep q)
    (hb : R.rep b) (h : q < caffe_nextafter R b) : q ≤ b := by
  by_contra hgt
  exact absurd (R.next_le b q hb hq (lt_of_not_le hgt)) (not_le.mpr h)

theorem convert_in_range {α β : Type} (conv : α → β) (count : ℤ)
    (src : ℤ → α) (dst : ℤ → β) (i : ℤ) (h0 : 0 ≤ i) (h1 : i < count) :
    caffe_cpu_convert conv count src dst i = conv (src i) := by
  simp [caffe_cpu_convert, h0, h1]

theorem foldl_add_eq_sum {M : Type} [AddCommMonoid M] (f : ℕ → M) :
    ∀ (n : ℕ) (a : M),
      (List.range n).foldl (fun s i => s + f i) a = a + ∑ i in Finset.range n, f i := by
  intro n
  induction n with
  | zero => intro a; simp
  | succ m ih =>
      intro a
      rw [List.range_succ, List.foldl_append]
      simp [ih, Finset.sum_range_succ, add_assoc]

theorem index_nonneg {a b Q : ℤ} (ha0 : 0 ≤ a) (hb0 : 0 ≤ b) (hQ : 0 ≤ Q) :
    0 ≤ a * Q + b := add_nonneg (mul_nonneg ha0 hQ) hb0

theorem index_lt {a b P Q : ℤ} (haP : a < P) (hb0 : 0 ≤ b) (hbQ : b < Q) :
    a * Q + b < P * Q := by
  have h1 : a * Q + b < a * Q + Q := add_lt_add_left hbQ _
  have h2 : a * Q + Q = (a + 1) * Q := by ring
  have h3 : (a + 1) * Q ≤ P * Q :=
    mul_le_mul_of_nonneg_right (by omega) (by omega)
  linarith

/-- Evaluation of the reduced-precision gemm path at an output index
inside `[0, M*N)`, for positive dimensions: the element is the storage
conversion of `alpha * Σ_k Ã[op] * B̃[op] + beta * C̃[i]`, where the tilded
values are the compute-type conversions of the storage elements. -/
theorem gemm_half_eval {H : Type} (toF : H → ℚ) (ofF : ℚ → H)
    (tA tB : Bool) (M N K : ℤ) (alpha beta : ℚ) (A B C : ℤ → H) (i : ℤ)
    (hM : 0 < M) (hN : 0 < N) (hK : 0 < K) (hi0 : 0 ≤ i) (hi : i < M * N) :
    caffe_cpu_gemm_half cblas_sgemm toF ofF tA tB M N K alpha A B beta C i =
      ofF (alpha * (∑ k in Finset.range K.toNat,
          (cond tA (toF (A ((k : ℤ) * M + i / N))) (toF (A ((i / N) * K + (k : ℤ))))) *
          (cond tB (toF (B ((i % N) * K + (k : ℤ)))) (toF (B ((k : ℤ) * N + i % N)))))
        + beta * toF (C i)) := by
  have hcond : ¬(M ≤ 0 ∨ N ≤ 0 ∨ K ≤ 0) := by push_neg; exact ⟨hM, hN, hK⟩
  have hm0 : 0 ≤ i / N := Int.ediv_nonneg hi0 (le_of_lt hN)
  have hmM : i / N < M := (Int.ediv_lt_iff_lt_mul hN).mpr hi
  have hn0 : 0 ≤ i % N := Int.emod_nonneg i (ne_of_gt hN)
  have hnN : i % N < N := Int.emod_lt_of_pos i hN
  unfold caffe_cpu_gemm_half
  rw [if_neg hcond]
  rw [convert_in_range ofF (M * N)
    (cblas_sgemm tA tB M N K alpha (caffe_cpu_convert toF (M * K) A (fun _ => 0))
      (cond tA M K) (caffe_cpu_convert toF (K * N) B (fun _ => 0)) (cond tB K N)
      beta (caffe_cpu_convert toF (M * N) C (fun _ => 0)) N) C i hi0 hi]
  simp only [cblas_sgemm]
  rw [if_pos ⟨hN, hi0, hmM, hnN⟩,
    convert_in_range toF (M * N) C (fun _ => 0) i hi0 hi]
  refine congrArg ofF (congrArg₂ (· + ·) (congrArg (alpha * ·) ?_) rfl)
  refine Finset.sum_congr rfl fun k hk => ?_
  have hkK : (k : ℤ) < K := by
    have h1 := Finset.mem_range.mp hk
    omega
  have hk0 : (0 : ℤ) ≤ (k : ℤ) := Int.natCast_nonneg k
  cases tA <;> cases tB <;> simp only [Bool.cond_false, Bool.cond_true]
  · rw [convert_in_range toF (M * K) A (fun _ => 0) _
        (index_nonneg hm0 hk0 (le_of_lt hK)) (index_lt hmM hk0 hkK),
      convert_in_range toF (K * N) B (fun _ => 0) _
        (index_nonneg hk0 hn0 (le_of_lt hN)) (index_lt hkK hn0 hnN)]
  · rw [convert_in_range toF (M * K) A (fun _ => 0) _
        (index_nonneg hm0 hk0 (le_of_lt hK)) (index_lt hmM hk0 hkK),
      convert_in_range toF (K * N) B (fun _ => 0) _
        (index_nonneg hn0 hk0 (le_of_lt hK))
        (by have h := index_lt hnN hk0 hkK; have h2 := mul_comm N K; linarith)]
  · rw [convert_in_range toF (M * K) A (fun _ => 0) _
        (index_nonneg hk0 hm0 (le_of_lt hM))
        (by have h := index_lt hkK hm0 hmM; have h2 := mul_comm K M; linarith),
      convert_in_range toF (K * N) B (fun _ => 0) _
        (index_nonneg hk0 hn0 (le_of_lt hN)) (index_lt hkK hn0 hnN)]
  · rw [convert_in_range toF (M * K) A (fun _ => 0) _
        (index_nonneg hk0 hm0 (le_of_lt hM))
        (by have h := index_lt hkK hm0 hmM; have h2 := mul_comm K M; linarith),
      convert_in_range toF (K * N) B (fun _ => 0) _
        (index_nonneg hn0 hk0 (le_of_lt hK))
        (by have h := index_lt hnN hk0 hkK; have h2 := mul_comm N K; linarith)]

/-- Evaluation of the native single-precision gemm path at an output index
inside `[0, M*N)`: the same formula on the raw compute-type elements. -/
theorem gemm_float_eval (tA tB : Bool) (M N K : ℤ) (alpha beta : ℚ)
    (A B C : ℤ → ℚ) (i : ℤ) (hN : 0 < N) (hi0 : 0 ≤ i) (hi : i < M * N) :
    caffe_cpu_gemm_float tA tB M N K alpha A B beta C i =
      alpha * (∑ k in Finset.range K.toNat,
          (cond tA (A ((k : ℤ) * M + i / N)) (A ((i / N) * K + (k : ℤ)))) *
          (cond tB (B ((i % N) * K + (k : ℤ))) (B ((k : ℤ) * N + i % N))))
        + beta * C i := by
  have hmM : i / N < M := (Int.ediv_lt_iff_lt_mul hN).mpr hi
  have hnN : i % N < N := Int.emod_lt_of_pos i hN
  unfold caffe_cpu_gemm_float
  simp only [cblas_sgemm]
  rw [if_pos ⟨hN, hi0, hmM, hnN⟩]
  cases tA <;> cases tB <;> rfl

/-- Evaluation of the reduced-precision gemv path at an output index
inside the written region `[0, ly)` with `ly = (trans ? N : M)`. -/
theorem gemv_half_eval {H : Type} (toF : H → ℚ) (ofF : ℚ → H)
    (tA : Bool) (M N : ℤ) (alpha beta : ℚ) (A x y : ℤ → H) (i : ℤ)
    (hM : 0 < M) (hN : 0 < N) (hi0 : 0 ≤ i) (hi : i < cond tA N M) :
    caffe_cpu_gemv_half cblas_sgemv toF ofF tA M N alpha A x beta y i =
      ofF (alpha * (∑ k in Finset.range (cond tA M N).toNat,
          (cond tA (toF (A ((k : ℤ) * N + i))) (toF (A (i * N + (k : ℤ))))) *
          toF (x (k : ℤ)))
        + beta * toF (y i)) := by
  have hcond : ¬(M ≤ 0 ∨ N ≤ 0) := by push_neg; exact ⟨hM, hN⟩
  unfold caffe_cpu_gemv_half
  rw [if_neg hcond]
  rw [convert_in_range ofF (cond tA N M)
    (cblas_sgemv tA M N alpha (caffe_cpu_convert toF (M * N) A (fun _ => 0)) N
      (caffe_cpu_convert toF (cond tA M N) x (fun _ => 0)) beta
      (caffe_cpu_convert toF (cond tA N M) y (fun _ => 0))) y i hi0 hi]
  simp only [cblas_sgemv]
  rw [if_pos ⟨hi0, hi⟩,
    convert_in_range toF (cond tA N M) y (fun _ => 0) i hi0 hi]
  refine congrArg ofF (congrArg₂ (· + ·) (congrArg (alpha * ·) ?_) rfl)
  refine Finset.sum_congr rfl fun k hk => ?_
  have hk0 : (0 : ℤ) ≤ (k : ℤ) := Int.natCast_nonneg k
  cases tA <;> simp only [Bool.cond_false, Bool.cond_true] at hi hk ⊢
  · have hkN : (k : ℤ) < N := by
      have h1 := Finset.mem_range.mp hk
      omega
    rw [convert_in_range toF (M * N) A (fun _ => 0) _
        (index_nonneg hi0 hk0 (le_of_lt hN)) (index_lt hi hk0 hkN),
      convert_in_range toF N x (fun _ => 0) _ hk0 hkN]
  · have hkM : (k : ℤ) < M := by
      have h1 := Finset.mem_range.mp hk
      omega
    rw [convert_in_range toF (M * N) A (fun _ => 0) _
        (index_nonneg hk0 hi0 (le_of_lt hN)) (index_lt hkM hi0 hi),
      convert_in_range toF M x (fun _ => 0) _ hk0 hkM]

/-- Evaluation of the native single-precision gemv path at an output index
inside the written region. -/
theorem gemv_float_eval (tA : Bool) (M N : ℤ) (alpha beta : ℚ)
    (A x y : ℤ → ℚ) (i : ℤ) (hi0 : 0 ≤ i) (hi : i < cond tA N M) :
    caffe_cpu_gemv_float tA M N alpha A x beta y i =
      alpha * (∑ k in Finset.range (cond tA M N).toNat,
          (cond tA (A ((k : ℤ) * N + i)) (A (i * N + (k : ℤ)))) * x (k : ℤ))
        + beta * y i := by
  unfold caffe_cpu_gemv_float
  simp only [cblas_sgemv]
  rw [if_pos ⟨hi0, hi⟩]

/- ------------------------------------------------------------------ -/
/- C4: uniform sampling reaches the inclusive upper bound              -/
/- ------------------------------------------------------------------ -/

/-- C4: `caffe_rng_uniform(n, a, b, r)` with `n ≥ 0`, `a ≤ b` succeeds and
draws from the half-open distribution on `[a, caffe_nextafter(b))`; since
no representable compute-type value lies strictly between `b` and
`caffe_nextafter(b)`, every written sample is the storage conversion of a
representable `q` with `a ≤ q ≤ b`, and the boundary value `b` itself lies
inside the sampling interval (so it is attainable). -/
theorem C4_uniform_inclusive_upper_bound (R : RepModel) (dist : ℚ → ℚ → ℕ → ℚ)
    {H : Type} (conv : ℚ → H) (n : ℤ) (a b : ℚ)
    (hn : 0 ≤ n) (hab : a ≤ b) (hb : R.rep b)
    (hdist : ∀ i, a ≤ dist a (caffe_nextafter R b) i ∧
      dist a (caffe_nextafter R b) i < caffe_nextafter R b)
    (hrepd : ∀ i, R.rep (dist a (caffe_nextafter R b) i)) :
    (∃ l, caffe_rng_uniform dist R conv n a b = some l ∧ l.length = n.toNat ∧
        ∀ s ∈ l, ∃ q, R.rep q ∧ a ≤ q ∧ q ≤ b ∧ s = conv q) ∧
    (a ≤ b ∧ b < caffe_nextafter R b) := by
  refine ⟨⟨(List.range n.toNat).map fun i => conv (dist a (caffe_nextafter R b) i),
    ?_, ?_, ?_⟩, hab, R.lt_next b hb⟩
  · unfold caffe_rng_uniform
    rw [if_pos ⟨hn, hab⟩]
  · simp
  · intro s hs
    simp only [List.mem_map, List.mem_range] at hs
    obtain ⟨i, _, rfl⟩ := hs
    exact ⟨dist a (caffe_nextafter R b) i, hrepd i, (hdist i).1,
      rep_lt_next_imp_le R (hrepd i) hb (hdist i).2, rfl⟩

/-- Witness for C4 on the integer grid with `a = 0`, `b = 2`, `n = 3` and a
sampler that returns the boundary value `2 = b` itself (which lies in
`[0, nextafter 2) = [0, 3)`). -/
theorem C4_uniform_inclusive_upper_bound_witness :
    (∃ l, caffe_rng_uniform (fun _ _ _ => (2 : ℚ)) gridRep (id : ℚ → ℚ) 3 0 2 = some l ∧
        l.length = (3 : ℤ).toNat ∧
        ∀ s ∈ l, ∃ q, gridRep.rep q ∧ 0 ≤ q ∧ q ≤ 2 ∧ s = id q) ∧
    ((0 : ℚ) ≤ 2 ∧ (2 : ℚ) < caffe_nextafter gridRep 2) :=
  C4_uniform_inclusive_upper_bound gridRep (fun _ _ _ => (2 : ℚ)) id 3 0 2
    (by norm_num) (by norm_num) ⟨2, by norm_num⟩
    (fun _ => ⟨by norm_num, by show (2 : ℚ) < 2 + 1; norm_num⟩)
    (fun _ => ⟨2, by norm_num⟩)

/- ------------------------------------------------------------------ -/
/- C10: uniform sampling with equal bounds fills with the constant     -/
/- ------------------------------------------------------------------ -/

/-- C10: `caffe_rng_uniform(n, a, a, r)` passes the precondition check
(`a ≤ b` admits equality) and, because the half-open interval
`[a, caffe_nextafter(a))` contains no representable compute-type value
other than `a`, every written element equals the storage conversion of
`a`. -/
theorem C10_uniform_equal_bounds_constant (R : RepModel) (dist : ℚ → ℚ → ℕ → ℚ)
    {H : Type} (conv : ℚ → H) (n : ℤ) (a : ℚ)
    (hn : 0 ≤ n) (ha : R.rep a)
    (hdist : ∀ i, a ≤ dist a (caffe_nextafter R a) i ∧
      dist a (caffe_nextafter R a) i < caffe_nextafter R a)
    (hrepd : ∀ i, R.rep (dist a (caffe_nextafter R a) i)) :
    ∃ l, caffe_rng_uniform dist R conv n a a = some l ∧ l.length = n.toNat ∧
      ∀ s ∈ l, s = conv a := by
  refine ⟨(List.range n.toNat).map fun i => conv (dist a (caffe_nextafter R a) i),
    ?_, ?_, ?_⟩
  · unfold caffe_rng_uniform
    rw [if_pos ⟨hn, le_refl a⟩]
  · simp
  · intro s hs
    simp only [List.mem_map, List.mem_range] at hs
    obtain ⟨i, _, rfl⟩ := hs
    have hle : dist a (caffe_nextafter R a) i ≤ a :=
      rep_lt_next_imp_le R (hrepd i) ha (hdist i).2
    have heq : dist a (caffe_nextafter R a) i = a := le_antisymm hle (hdist i).1
    rw [heq]

/-- Witness for C10 on the integer grid with `a = b = 1`, `n = 2`: the only
representable value in `[1, 2)` is `1`, so the buffer is constant. -/
theorem C10_uniform_equal_bounds_constant_witness :
    ∃ l, caffe_rng_uniform (fun _ _ _ => (1 : ℚ)) gridRep (id : ℚ → ℚ) 2 1 1 = some l ∧
      l.length = (2 : ℤ).toNat ∧ ∀ s ∈ l, s = id 1 :=
  C10_uniform_equal_bounds_constant gridRep (fun _ _ _ => (1 : ℚ)) id 2 1
    (by norm_num) ⟨1, by norm_num⟩
    (fun _ => ⟨by norm_num, by show (1 : ℚ) < 1 + 1; norm_num⟩)
    (fun _ => ⟨1, by norm_num⟩)

/- ------------------------------------------------------------------ -/
/- C8: gaussian sampling rejects sigma ≤ 0                             -/
/- ------------------------------------------------------------------ -/

/-- C8: for `n ≥ 0`, `caffe_rng_gaussian(n, mean, sigma, r)` with
`sigma ≤ 0` fails immediately (before any computation or write, so no
clamped value is sampled), and with `sigma > 0` no such failure occurs:
the call succeeds and produces its `n` samples. -/
theorem C8_gaussian_sigma_precondition {H : Type} (dist : ℚ → ℚ → ℕ → ℚ)
    (conv : ℚ → H) (n : ℤ) (mu sigma : ℚ) (hn : 0 ≤ n) :
    (sigma ≤ 0 → caffe_rng_gaussian dist conv n mu sigma = none) ∧
    (0 < sigma → ∃ l, caffe_rng_gaussian dist conv n mu sigma = some l ∧
      l.length = n.toNat) := by
  constructor
  · intro hs
    unfold caffe_rng_gaussian
    rw [if_neg]
    rintro ⟨_, hpos⟩
    exact absurd hs (not_le.mpr hpos)
  · intro hs
    unfold caffe_rng_gaussian
    rw [if_pos ⟨hn, hs⟩]
    exact ⟨_, rfl, by simp⟩

/-- Witness for C8 at `n = 2`: `sigma = -1` aborts with no output, while
`sigma = 1` succeeds with 2 samples. -/
theorem C8_gaussian_sigma_precondition_witness :
    caffe_rng_gaussian (fun _ _ _ => (0 : ℚ)) (id : ℚ → ℚ) 2 0 (-1) = none ∧
    (∃ l, caffe_rng_gaussian (fun _ _ _ => (0 : ℚ)) (id : ℚ → ℚ) 2 0 1 = some l ∧
      l.length = (2 : ℤ).toNat) :=
  ⟨(C8_gaussian_sigma_precondition (fun _ _ _ => (0 : ℚ)) id 2 0 (-1)
      (by norm_num)).1 (by norm_num),
   (C8_gaussian_sigma_precondition (fun _ _ _ => (0 : ℚ)) id 2 0 1
      (by norm_num)).2 (by norm_num)⟩

/- ------------------------------------------------------------------ -/
/- C7: bulk zero-fill equals the per-element store path                -/
/- ------------------------------------------------------------------ -/

/-- C7: for every storage type whose all-zero bit pattern is the
storage-type conversion of the compute value `0` (the `zeroD = convD 0`
hypothesis, a property of the opaque scalar format that holds for every
storage type the source instantiates), `caffe_set(n, 0, Y)` takes the bulk
`memset` special case and its observable result is exactly the general
per-element-store path: every element of `[0, n)` equals `convD 0`. -/
theorem C7_set_zero_special_case {D : Type} (convD : ℚ → D) (zeroD : D)
    (n : ℤ) (Y : ℤ → D) (hz : zeroD = convD 0) :
    caffe_set convD zeroD n 0 Y = caffe_set_general convD n 0 Y ∧
    ∀ i, 0 ≤ i → i < n → caffe_set convD zeroD n 0 Y i = convD 0 := by
  constructor
  · funext i
    simp [caffe_set, caffe_set_general, hz]
  · intro i h0 h1
    simp [caffe_set, h0, h1, hz]

/-- Witness for C7 at `n = 5`: the zero-filled buffer agrees with the
per-element path, and the element at index 2 is zero. -/
theorem C7_set_zero_special_case_witness :
    caffe_set (id : ℚ → ℚ) 0 5 0 (fun _ => 3) = caffe_set_general id 5 0 (fun _ => 3) ∧
    caffe_set (id : ℚ → ℚ) 0 5 0 (fun _ => 3) 2 = id 0 :=
  ⟨(C7_set_zero_special_case id 0 5 (fun _ => 3) rfl).1,
   (C7_set_zero_special_case id 0 5 (fun _ => 3) rfl).2 2 (by norm_num) (by norm_num)⟩

/- ------------------------------------------------------------------ -/
/- C5: degenerate sizes are a no-op on the reduced-precision paths     -/
/- ------------------------------------------------------------------ -/

/-- C5: on the reduced-precision paths, a non-positive dimension
(`M ≤ 0 ∨ N ≤ 0 ∨ K ≤ 0` for gemm, `M ≤ 0 ∨ N ≤ 0` for gemv) makes the
call return immediately: the output buffer is returned completely
unchanged, for every backend (so the backend is not consulted). -/
theorem C5_degenerate_dims_noop {H : Type} (sgemm : SgemmFn) (sgemv : SgemvFn)
    (toF : H → ℚ) (ofF : ℚ → H) (tA tB : Bool) (M N K M2 N2 : ℤ)
    (alpha beta alpha2 beta2 : ℚ) (A B C Av xv yv : ℤ → H)
    (hg : M ≤ 0 ∨ N ≤ 0 ∨ K ≤ 0) (hv : M2 ≤ 0 ∨ N2 ≤ 0) :
    caffe_cpu_gemm_half sgemm toF ofF tA tB M N K alpha A B beta C = C ∧
    caffe_cpu_gemv_half sgemv toF ofF tA M2 N2 alpha2 Av xv beta2 yv = yv := by
  constructor
  · unfold caffe_cpu_gemm_half
    rw [if_pos hg]
  · unfold caffe_cpu_gemv_half
    rw [if_pos hv]

/-- Witness for C5 at `M = 0` (gemm) and `N2 = -1` (gemv), with a backend
that would overwrite everything with 99 if it were ever invoked. -/
theorem C5_degenerate_dims_noop_witness :
    caffe_cpu_gemm_half (fun _ _ _ _ _ _ _ _ _ _ _ _ _ _ => (99 : ℚ))
        (id : ℚ → ℚ) id false false 0 3 3 1 (fun _ => 2) (fun _ => 2) 1 (fun _ => 7) =
      (fun _ => 7) ∧
    caffe_cpu_gemv_half (fun _ _ _ _ _ _ _ _ _ _ => (99 : ℚ))
        (id : ℚ → ℚ) id false 4 (-1) 1 (fun _ => 2) (fun _ => 2) 1 (fun _ => 7) =
      (fun _ => 7) :=
  C5_degenerate_dims_noop _ _ _ _ _ _ 0 3 3 4 (-1) _ _ _ _ _ _ _ _ _ _
    (Or.inl (by decide)) (Or.inr (by decide))

/- ------------------------------------------------------------------ -/
/- C9: self-copy is a no-op in every mode                              -/
/- ------------------------------------------------------------------ -/

/-- C9: `caffe_copy(n, x, x)` with identical source and destination address
is a no-op: the heap is returned unchanged and no failure occurs, whatever
the execution mode and whatever the compiled-in accelerator capability
(the mode flag is irrelevant to the result). -/
theorem C9_self_copy_noop {D : Type} (isGPU gpuAvailable : Bool) (n p : ℤ)
    (heap : ℤ → D) :
    caffe_copy isGPU gpuAvailable n p p heap = some heap := by
  simp [caffe_copy]

/- ------------------------------------------------------------------ -/
/- C6: reduced-precision strided dot                                   -/
/- ------------------------------------------------------------------ -/

/-- C6: `caffe_cpu_strided_dot<half,float>(n, x, incx, y, incy)` returns
exactly `Σ_{i<n} Get<float>(x[i*incx]) * Get<float>(y[i*incy])`, the sum
being formed in the compute type (the exact sum of the converted products,
with a single conversion per element and no intermediate re-quantization). -/
theorem C6_strided_dot_exact_sum {H : Type} (toF : H → ℚ) (n : ℤ)
    (x : ℤ → H) (incx : ℤ) (y : ℤ → H) (incy : ℤ) :
    caffe_cpu_strided_dot_half toF n x incx y incy =
      ∑ i in Finset.range n.toNat, toF (x ((i : ℤ) * incx)) * toF (y ((i : ℤ) * incy)) := by
  unfold caffe_cpu_strided_dot_half
  rw [foldl_add_eq_sum]
  rw [zero_add]

/- ------------------------------------------------------------------ -/
/- C3: hamming distance                                                -/
/- ------------------------------------------------------------------ -/

section HammingEvaluation

/- Batteries marks the rational-number operations irreducible; concrete
evaluation of the hamming-distance models needs them unfolded. -/
attribute [local semireducible] Rat.add Rat.mul Rat.inv Rat.sub

set_option maxRecDepth 100000

/-- C3 counterexample: at `n = 1`, `x[0] = 1.5`, `y[0] = 0` the code's
single-precision hamming distance is `popcount(uint32(1.5) ^ uint32(0)) =
popcount(1) = 1` (the C++ cast converts the numeric value, truncating),
while the claim's reading — XOR of the elements reinterpreted as 32-bit
unsigned integers, i.e. of their bit patterns `0x3FC00000` and `0` — gives
`8`.  The code computes a numeric-truncation metric, not the bit-pattern
metric the claim states. -/
theorem C3_hamming_bitpattern_counterexample :
    caffe_cpu_hamming_distance_float 1 (fun _ => (3 / 2 : ℚ)) (fun _ => 0) = 1 ∧
    hamming_distance_bitpattern 1 (fun _ => (3 / 2 : ℚ)) (fun _ => 0) = 8 ∧
    caffe_cpu_hamming_distance_float 1 (fun _ => (3 / 2 : ℚ)) (fun _ => 0) ≠
      hamming_distance_bitpattern 1 (fun _ => (3 / 2 : ℚ)) (fun _ => 0) := by
  refine ⟨by decide, by decide, by decide⟩

/-- C3 amended: for every type pair and every `n ≥ 0`,
`caffe_cpu_hamming_distance(n, x, y)` returns the sum over `i < n` of the
population count of the XOR of `x[i]` and `y[i]` **numerically converted
(truncated toward zero)** to unsigned integers of matching width — 32-bit
for single precision, 64-bit for double precision, 16-bit for the
reduced-precision type after conversion to the compute type — the range
hypotheses stating that every converted value is representable in that
width (otherwise the C++ conversion is undefined behaviour). -/
theorem C3_amended_hamming_truncation {H : Type} (toF : H → ℚ) (n : ℤ)
    (x y xd yd : ℤ → ℚ) (xh yh : ℤ → H)
    (h32 : ∀ i : ℤ, 0 ≤ i → i < n →
      0 ≤ cppTruncToInt (x i) ∧ cppTruncToInt (x i) < 2 ^ 32 ∧
      0 ≤ cppTruncToInt (y i) ∧ cppTruncToInt (y i) < 2 ^ 32)
    (h64 : ∀ i : ℤ, 0 ≤ i → i < n →
      0 ≤ cppTruncToInt (xd i) ∧ cppTruncToInt (xd i) < 2 ^ 64 ∧
      0 ≤ cppTruncToInt (yd i) ∧ cppTruncToInt (yd i) < 2 ^ 64)
    (h16 : ∀ i : ℤ, 0 ≤ i → i < n →
      0 ≤ cppTruncToInt (toF (xh i)) ∧ cppTruncToInt (toF (xh i)) < 2 ^ 16 ∧
      0 ≤ cppTruncToInt (toF (yh i)) ∧ cppTruncToInt (toF (yh i)) < 2 ^ 16) :
    caffe_cpu_hamming_distance_float n x y =
      (∑ i in Finset.range n.toNat,
        (popcount ((cppTruncToInt (x (i : ℤ))).toNat ^^^ (cppTruncToInt (y (i : ℤ))).toNat) : ℤ)) ∧
    caffe_cpu_hamming_distance_double n xd yd =
      (∑ i in Finset.range n.toNat,
        (popcount ((cppTruncToInt (xd (i : ℤ))).toNat ^^^ (cppTruncToInt (yd (i : ℤ))).toNat) : ℤ)) ∧
    caffe_cpu_hamming_distance_half toF n xh yh =
      (∑ i in Finset.range n.toNat,
        (popcount ((cppTruncToInt (toF (xh (i : ℤ)))).toNat ^^^
          (cppTruncToInt (toF (yh (i : ℤ)))).toNat) : ℤ)) := by
  refine ⟨?_, ?_, ?_⟩
  · unfold caffe_cpu_hamming_distance_float
    rw [foldl_add_eq_sum, zero_add]
  · unfold caffe_cpu_hamming_distance_double
    rw [foldl_add_eq_sum, zero_add]
  · unfold caffe_cpu_hamming_distance_half
    rw [foldl_add_eq_sum, zero_add]

/-- Witness for the amended C3 at `n = 2` with in-range (16-bit safe)
values `x[i] = 1.5`, `y[i] = 0` for all three variants. -/
theorem C3_amended_hamming_truncation_witness :
    caffe_cpu_hamming_distance_float 2 (fun _ => (3 / 2 : ℚ)) (fun _ => 0) =
      (∑ i in Finset.range (2 : ℤ).toNat,
        (popcount ((cppTruncToInt ((3 / 2 : ℚ))).toNat ^^^ (cppTruncToInt (0 : ℚ)).toNat) : ℤ)) ∧
    caffe_cpu_hamming_distance_double 2 (fun _ => (3 / 2 : ℚ)) (fun _ => 0) =
      (∑ i in Finset.range (2 : ℤ).toNat,
        (popcount ((cppTruncToInt ((3 / 2 : ℚ))).toNat ^^^ (cppTruncToInt (0 : ℚ)).toNat) : ℤ)) ∧
    caffe_cpu_hamming_distance_half (id : ℚ → ℚ) 2 (fun _ => (3 / 2 : ℚ)) (fun _ => 0) =
      (∑ i in Finset.range (2 : ℤ).toNat,
        (popcount ((cppTruncToInt (id (3 / 2 : ℚ))).toNat ^^^ (cppTruncToInt (id (0 : ℚ))).toNat) : ℤ)) :=
  by
    refine C3_amended_hamming_truncation (id : ℚ → ℚ) 2
      (fun _ => (3 / 2 : ℚ)) (fun _ => 0) (fun _ => (3 / 2 : ℚ)) (fun _ => 0)
      (fun _ => (3 / 2 : ℚ)) (fun _ => 0) ?_ ?_ ?_
    · intro i h0 h1
      exact ⟨(by decide : (0 : ℤ) ≤ cppTruncToInt (3 / 2 : ℚ)),
        (by decide : cppTruncToInt (3 / 2 : ℚ) < 2 ^ 32),
        (by decide : (0 : ℤ) ≤ cppTruncToInt (0 : ℚ)),
        (by decide : cppTruncToInt (0 : ℚ) < 2 ^ 32)⟩
    · intro i h0 h1
      exact ⟨(by decide : (0 : ℤ) ≤ cppTruncToInt (3 / 2 : ℚ)),
        (by decide : cppTruncToInt (3 / 2 : ℚ) < 2 ^ 64),
        (by decide : (0 : ℤ) ≤ cppTruncToInt (0 : ℚ)),
        (by decide : cppTruncToInt (0 : ℚ) < 2 ^ 64)⟩
    · intro i h0 h1
      exact ⟨(by decide : (0 : ℤ) ≤ cppTruncToInt (3 / 2 : ℚ)),
        (by decide : cppTruncToInt (3 / 2 : ℚ) < 2 ^ 16),
        (by decide : (0 : ℤ) ≤ cppTruncToInt (0 : ℚ)),
        (by decide : cppTruncToInt (0 : ℚ) < 2 ^ 16)⟩

end HammingEvaluation

/- ------------------------------------------------------------------ -/
/- C1: reduced-precision gemm beta-accumulation                        -/
/- ------------------------------------------------------------------ -/

/-- C1: for `M, N, K > 0`, the reduced-precision gemm (which converts `A`,
`B` and the pre-existing contents of `C` into the three compute-type
temporaries of sizes `M*K`, `K*N`, `M*N`, invokes the backend multiply on
the temporaries, and converts the `M*N` results back into `C`) produces at
every output index `i ∈ [0, M*N)` the storage conversion of
`alpha * Σ_k op(Ã)[m,k] * op(B̃)[k,n] + beta * C̃[i]`, the tilded buffers
being the compute-type conversions — so for every `beta ≠ 0` the old
values of `C` contribute exactly as in `C := alpha*op(A)*op(B) + beta*C`. -/
theorem C1_gemm_half_beta_accumulation {H : Type} (toF : H → ℚ) (ofF : ℚ → H)
    (tA tB : Bool) (M N K : ℤ) (alpha beta : ℚ) (A B C : ℤ → H) (i : ℤ)
    (hM : 0 < M) (hN : 0 < N) (hK : 0 < K) (hi0 : 0 ≤ i) (hi : i < M * N) :
    caffe_cpu_gemm_half cblas_sgemm toF ofF tA tB M N K alpha A B beta C i =
      ofF (alpha * (∑ k in Finset.range K.toNat,
          (cond tA (toF (A ((k : ℤ) * M + i / N))) (toF (A ((i / N) * K + (k : ℤ))))) *
          (cond tB (toF (B ((i % N) * K + (k : ℤ)))) (toF (B ((k : ℤ) * N + i % N)))))
        + beta * toF (C i)) :=
  gemm_half_eval toF ofF tA tB M N K alpha beta A B C i hM hN hK hi0 hi

/- ------------------------------------------------------------------ -/
/- C2: cross-path equivalence of the reduced and native paths          -/
/- ------------------------------------------------------------------ -/

/-- C2 amended (cross-path equivalence, restricted to positive
dimensions): for `M, N, K > 0`, at every written output index the
reduced-precision gemm/gemv result equals the storage-type conversion
(the narrow format's quantization — exactly the claimed representable
error bound) of the result the native single-precision path produces on
the same logical inputs (the compute-type images of the elements).  The
restriction is forced: for non-positive dimensions the reduced path
no-ops while the native backend still applies the `beta` scaling (see the
counterexample). -/
theorem C2_amended_cross_path_equiv {H : Type} (toF : H → ℚ) (ofF : ℚ → H)
    (tA tB : Bool) (M N K : ℤ) (alpha beta alpha2 beta2 : ℚ)
    (A B C Av xv yv : ℤ → H)
    (hM : 0 < M) (hN : 0 < N) (hK : 0 < K) :
    (∀ i, 0 ≤ i → i < M * N →
      caffe_cpu_gemm_half cblas_sgemm toF ofF tA tB M N K alpha A B beta C i =
        ofF (caffe_cpu_gemm_float tA tB M N K alpha (fun j => toF (A j))
          (fun j => toF (B j)) beta (fun j => toF (C j)) i)) ∧
    (∀ i, 0 ≤ i → i < cond tA N M →
      caffe_cpu_gemv_half cblas_sgemv toF ofF tA M N alpha2 Av xv beta2 yv i =
        ofF (caffe_cpu_gemv_float tA M N alpha2 (fun j => toF (Av j))
          (fun j => toF (xv j)) beta2 (fun j => toF (yv j)) i)) := by
  constructor
  · intro i h0 h1
    rw [gemm_half_eval toF ofF tA tB M N K alpha beta A B C i hM hN hK h0 h1,
      gemm_float_eval tA tB M N K alpha beta _ _ _ i hN h0 h1]
  · intro i h0 h1
    rw [gemv_half_eval toF ofF tA M N alpha2 beta2 Av xv yv i hM hN h0 h1,
      gemv_float_eval tA M N alpha2 beta2 _ _ _ i h0 h1]

section GemmEvaluation

attribute [local semireducible] Rat.add Rat.mul Rat.inv Rat.sub

/-- Witness for C1 at `M = N = K = 1`, `alpha = 2`, `beta = 3`,
`A = [5]`, `B = [7]`, `C = [11]` with identity conversions: the output
element is `2*(5*7) + 3*11 = 103`, confirming the converted old `C`
participates in the `beta` accumulation. -/
theorem C1_gemm_half_beta_accumulation_witness :
    caffe_cpu_gemm_half cblas_sgemm (id : ℚ → ℚ) id false false 1 1 1 2
        (fun _ => 5) (fun _ => 7) 3 (fun _ => 11) 0 = 103 :=
  (C1_gemm_half_beta_accumulation (id : ℚ → ℚ) id false false 1 1 1 2 3
      (fun _ => 5) (fun _ => 7) (fun _ => 11) 0 (by decide) (by decide) (by decide)
      (by decide) (by decide)).trans (by decide)

/-- C2 counterexample: the claim as stated quantifies over every logical
input, but at the degenerate dimension `K = 0` (with `M = N = 1`,
identity conversions, `alpha = 1`, `beta = 0`, `C = [7]`) the
reduced-precision path returns `C` unchanged (`7`) while the native
single-precision path on the same logical input computes
`alpha * (empty sum) + beta * C = 0`: the difference is not a
representation error of the narrow format, so cross-path equivalence
fails without the positive-dimension restriction. -/
theorem C2_cross_path_counterexample :
    caffe_cpu_gemm_half cblas_sgemm (id : ℚ → ℚ) id false false 1 1 0 1
        (fun _ => 0) (fun _ => 0) 0 (fun _ => 7) 0 = 7 ∧
    id (caffe_cpu_gemm_float false false 1 1 0 1 (fun j => id ((fun _ => (0 : ℚ)) j))
        (fun j => id ((fun _ => (0 : ℚ)) j)) 0 (fun j => id ((fun _ => (7 : ℚ)) j)) 0) = 0 ∧
    (7 : ℚ) ≠ 0 :=
  ⟨by decide, by decide, by decide⟩

/-- Witness for the amended C2 at `M = N = K = 1` with identity
conversions: both written elements of the gemm and gemv reduced paths
agree with the quantized native results. -/
theorem C2_amended_cross_path_equiv_witness :
    (caffe_cpu_gemm_half cblas_sgemm (id : ℚ → ℚ) id false false 1 1 1 2
        (fun _ => 5) (fun _ => 7) 3 (fun _ => 11) 0 =
      id (caffe_cpu_gemm_float false false 1 1 1 2 (fun j => id ((fun _ => (5 : ℚ)) j))
        (fun j => id ((fun _ => (7 : ℚ)) j)) 3 (fun j => id ((fun _ => (11 : ℚ)) j)) 0)) ∧
    (caffe_cpu_gemv_half cblas_sgemv (id : ℚ → ℚ) id false 1 1 2
        (fun _ => 5) (fun _ => 7) 3 (fun _ => 11) 0 =
      id (caffe_cpu_gemv_float false 1 1 2 (fun j => id ((fun _ => (5 : ℚ)) j))
        (fun j => id ((fun _ => (7 : ℚ)) j)) 3 (fun j => id ((fun _ => (11 : ℚ)) j)) 0)) :=
  ⟨(C2_amended_cross_path_equiv (id : ℚ → ℚ) id false false 1 1 1 2 3 2 3
      (fun _ => 5) (fun _ => 7) (fun _ => 11) (fun _ => 5) (fun _ => 7) (fun _ => 11)
      (by decide) (by decide) (by decide)).1 0 (by decide) (by decide),
   (C2_amended_cross_path_equiv (id : ℚ → ℚ) id false false 1 1 1 2 3 2 3
      (fun _ => 5) (fun _ => 7) (fun _ => 11) (fun _ => 5) (fun _ => 7) (fun _ => 11)
      (by decide) (by decide) (by decide)).2 0 (by decide) (by decide)⟩

end GemmEvaluation

end Caffe
